import Mathlib

/-!
Verification of the commit-graph core of git-big-picture
(src/git_big_picture/main.py).

The embedding below translates the Python source into Lean:

* Python dicts become association lists over `Sha := String`; lookup
  (`dlookup`) returns `Option`, mirroring dict subscription that can raise
  `KeyError` (a `none` result models the raised error).
* Python sets become insertion-ordered duplicate-free lists; `set.add`
  becomes `insertL`.
* The worklist loop of `CommitGraph._filter` becomes `searchFuel`, a
  structurally recursive function on a fuel parameter.  The wrapper
  `search` supplies `searchBound` fuel, and `searchFuel_ne_fuelOut`
  proves that this fuel can never run out, so `search` returns `none`
  exactly when the Python loop raises `KeyError`.
* `assert` failures in `_verify_child_mapping` (and `KeyError` inside it)
  make `verifyChildMapping` return `false`; the constructor
  `mkCommitGraph` returns `none` in that case, mirroring the exception
  escaping `CommitGraph.__init__`.
* The renderer `_generate_dot_file` is embedded as a list of structured
  `DotLine` values, one per emitted text line, in emission order.  The
  statement `for child, self.parents in self.parents.items()` of the
  source rebinds the `parents` attribute while emitting edges; this state
  change is captured by `parentsAfterRender`.
-/

/-! ## Definitions -/

/-- Commit identifier: an opaque hash string. -/
abbrev Sha := String

/-- Python dict mapping a commit to the ordered list of its parents. -/
abbrev PMap := List (Sha × List Sha)

/-- Python dict mapping a commit to its branch or tag names. -/
abbrev RefMap := List (Sha × List String)

/-- Python dict mapping a commit to the set of its children
(sets are modelled as duplicate-free insertion-ordered lists). -/
abbrev CMap := List (Sha × List Sha)

/-- Dict lookup, `m[k]` guarded by presence: `none` models `KeyError`. -/
def dlookup {β : Type} (m : List (Sha × β)) (k : Sha) : Option β :=
  match m with
  | [] => none
  | (k', v) :: rest => if k' = k then some v else dlookup rest k

/-- Keys of a dict, in insertion order. -/
def dkeys {β : Type} (m : List (Sha × β)) : List Sha :=
  m.map Prod.fst

/-- All values occurring in some parent list of the map. -/
def pvalues (m : PMap) : List Sha :=
  m.flatMap Prod.snd

/-- Python `set.add`: append the element if it is not present yet. -/
def insertL (x : Sha) (l : List Sha) : List Sha :=
  if x ∈ l then l else l ++ [x]

/-- Python dict assignment `m[k] = v`: replace in place or append. -/
def dictInsert {β : Type} (m : List (Sha × β)) (k : Sha) (v : β) :
    List (Sha × β) :=
  match m with
  | [] => [(k, v)]
  | (k', v') :: rest =>
    if k' = k then (k, v) :: rest else (k', v') :: dictInsert rest k v

/-- The CommitGraph object: `parents`, `branches`, `tags`, `dotdot` and the
derived `children` attribute, exactly the attributes set by
`CommitGraph.__init__`. -/
structure CommitGraph where
  parents : PMap
  branches : RefMap
  tags : RefMap
  dotdot : List Sha
  children : CMap
deriving DecidableEq

/-- One step of `_calculate_child_mapping`: record `c` as a child of `p`
(create the entry for `p` if absent, then add `c` to its set). -/
def cmAddChild (cm : CMap) (p c : Sha) : CMap :=
  match cm with
  | [] => [(p, [c])]
  | (k, v) :: rest =>
    if k = p then (k, insertL c v) :: rest else (k, v) :: cmAddChild rest p c

/-- Ensure a key has an entry in the child map, creating an empty set if
absent (the `if sha_one not in self.children` branch). -/
def cmEnsure (cm : CMap) (k : Sha) : CMap :=
  match cm with
  | [] => [(k, [])]
  | (k', v) :: rest =>
    if k' = k then (k', v) :: rest else (k', v) :: cmEnsure rest k

/-- Inner loop of `_calculate_child_mapping`: add `c` as child of each of
its parents, in parent-list order. -/
def addParents (cm : CMap) (c : Sha) : List Sha → CMap
  | [] => cm
  | p :: ps => addParents (cmAddChild cm p c) c ps

/-- Outer loop of `_calculate_child_mapping` over the parent-map items. -/
def childMappingAux (cm : CMap) : PMap → CMap
  | [] => cm
  | (c, ps) :: rest => childMappingAux (cmEnsure (addParents cm c ps) c) rest

/-- `_calculate_child_mapping`: derive the child map from the parent map,
starting from the empty dict set up by `__init__`. -/
def childMapping (pm : PMap) : CMap := childMappingAux [] pm

/-- `_verify_child_mapping`: check that parents and children represent the
same DAG.  A failing `assert` or a `KeyError` during the checks makes the
result `false` (the exception escaping the constructor). -/
def verifyChildMapping (pm : PMap) (cm : CMap) : Bool :=
  (pm.all fun e => e.2.all fun p =>
    match dlookup cm p with
    | none => false
    | some cs => cs.all fun c =>
      match dlookup pm c with
      | none => false
      | some ps => decide (p ∈ ps)) &&
  (cm.all fun e => e.2.all fun c =>
    match dlookup pm c with
    | none => false
    | some ps => ps.all fun p =>
      match dlookup cm p with
      | none => false
      | some cs => decide (c ∈ cs))

/-- `CommitGraph.__init__`: store the three maps, set `dotdot` to the
empty set, derive the child map and verify it.  Returns `none` when the
verification raises. -/
def mkCommitGraph (pm : PMap) (bm tm : RefMap) : Option CommitGraph :=
  if verifyChildMapping pm (childMapping pm) then
    some ⟨pm, bm, tm, [], childMapping pm⟩
  else none

/-- `_find_roots`: commits with an empty parent list. -/
def findRoots (g : CommitGraph) : List Sha :=
  g.parents.filterMap fun e => if e.2.isEmpty then some e.1 else none

/-- `_find_merges`: commits with more than one parent. -/
def findMerges (g : CommitGraph) : List Sha :=
  g.parents.filterMap fun e => if 1 < e.2.length then some e.1 else none

/-- `_find_bifurcations`: commits with more than one child. -/
def findBifurcations (g : CommitGraph) : List Sha :=
  g.children.filterMap fun e => if 1 < e.2.length then some e.1 else none

/-- `_has_label`: a sha is pointed to by a branch or a tag. -/
def hasLabel (g : CommitGraph) (s : Sha) : Bool :=
  decide (s ∈ dkeys g.branches) || decide (s ∈ dkeys g.tags)

/-- Assembly of the `interesting` list at the start of `_filter`, in the
order the source extends it. -/
def interestingList (g : CommitGraph) (branches tags roots merges
    bifurcations : Bool) (additional : List Sha) : List Sha :=
  (if branches then dkeys g.branches else []) ++
  (if tags then dkeys g.tags else []) ++
  (if roots then findRoots g else []) ++
  (if merges then findMerges g else []) ++
  (if bifurcations then findBifurcations g else []) ++
  additional

/-- Lookup of a list-valued dict entry, empty when the key is absent. -/
def dgetL {β : Type} (m : List (Sha × List β)) (k : Sha) : List β :=
  (dlookup m k).getD []

/-- Specification-level description of the child relation recorded by
`_calculate_child_mapping`: `y` is a child of `x` when some entry of the
parent map has key `y` and lists `x` among its parents. -/
def childSpec (pm : PMap) (x y : Sha) : Prop :=
  ∃ e ∈ pm, e.1 = y ∧ x ∈ e.2

/-- Outcome of one run of the inner worklist loop of `_filter`:
either the computed set of reachable interesting parents, a `KeyError`
(lookup of a commit absent from the parent map), or fuel exhaustion of
the embedding (proved unreachable below). -/
inductive SearchRes where
  | fuelOut : SearchRes
  | keyErr : SearchRes
  | ok (res : List Sha) : SearchRes
deriving DecidableEq

/-- The worklist loop of `_filter` (the `for commit_j in to_visit` loop):
`l` is the not-yet-processed tail of `to_visit`, `seen` the visited set
and `acc` the reachable interesting parents found so far.  A commit
already seen is skipped; an interesting commit is recorded and not
expanded; any other commit has its parents appended to the worklist,
raising `KeyError` when it is absent from the parent map. -/
def searchFuel (P : PMap) (I : List Sha) :
    Nat → List Sha → List Sha → List Sha → SearchRes
  | 0, _, _, _ => .fuelOut
  | _ + 1, [], _, acc => .ok acc
  | n + 1, j :: rest, seen, acc =>
    if j ∈ seen then searchFuel P I n rest seen acc
    else if j ∈ I then searchFuel P I n rest (insertL j seen) (insertL j acc)
    else
      match dlookup P j with
      | some ps => searchFuel P I n (rest ++ ps) (insertL j seen) acc
      | none => .keyErr

/-- Fuel that can never be exhausted: one unit per initial worklist entry
plus, for every key of the parent map, one unit for processing it and one
per parent it can enqueue. -/
def searchBound (P : PMap) (l : List Sha) : Nat :=
  l.length + ((dkeys P).toFinset.sum fun j => 1 + (dgetL P j).length) + 1

/-- One full inner search of `_filter` for a single interesting commit,
starting from the given worklist with empty `seen` and result sets.
Returns `none` exactly when the loop raises `KeyError`. -/
def search (P : PMap) (I : List Sha) (l : List Sha) : Option (List Sha) :=
  match searchFuel P I (searchBound P l) l [] [] with
  | .ok r => some r
  | _ => none

/-- Initial worklist for an interesting commit: its parent list when it is
a key of the parent map, empty otherwise (the
`if commit_i in self.parents` guard handling tags that point to
non-commits). -/
def startVisit (P : PMap) (i : Sha) : List Sha :=
  (dlookup P i).getD []

/-- The `for commit_i in interesting` loop of `_filter`, building the
`reachable_interesting_parents` dict. -/
def filterStepDict (P : PMap) (I : List Sha) : List Sha → PMap → Option PMap
  | [], d => some d
  | i :: rest, d =>
    match search P I (startVisit P i) with
    | some r => filterStepDict P I rest (dictInsert d i r)
    | none => none

/-- The parent map of the graph built by `_filter`. -/
def filterParents (P : PMap) (I : List Sha) : Option PMap :=
  filterStepDict P I I []

/-- `CommitGraph._filter`: assemble the interesting list, run the search
for every interesting commit and construct the result graph from the new
parent map and copies of the branch and tag dicts.  `none` models an
uncaught `KeyError`. -/
def filterCG (g : CommitGraph) (branches tags roots merges
    bifurcations : Bool) (additional : List Sha) : Option CommitGraph :=
  match filterParents g.parents
      (interestingList g branches tags roots merges bifurcations
        additional) with
  | some d => mkCommitGraph d g.branches g.tags
  | none => none

/-- State-passing view of `_filter`: the method only reads attributes of
`self` and assigns none, so the receiver after the call is the unchanged
graph, paired with the returned graph. -/
def filterCGEffect (g : CommitGraph) (branches tags roots merges
    bifurcations : Bool) (additional : List Sha) :
    Option CommitGraph × CommitGraph :=
  (filterCG g branches tags roots merges bifurcations additional, g)

/-- The loop of `_minimal_sha_one_digits` over
`digit_count in xrange(7, 40)`: `n` counts the remaining candidate
widths, `d` is the current width.  Returns the first width at which the
truncated keys are as many as the keys, or 40 when the range runs out. -/
def minDigitsAux (pm : PMap) : Nat → Nat → Nat
  | 0, _ => 40
  | n + 1, d =>
    if (pm.map fun e => e.1.take d).toFinset.card = pm.length then d
    else minDigitsAux pm n (d + 1)

/-- `_minimal_sha_one_digits`: smallest number of digits in
`xrange(7, 40)` representing all keys unambiguously, defaulting to 40. -/
def minimalShaOneDigits (pm : PMap) : Nat :=
  minDigitsAux pm 33 7

/-- One emitted line of graphviz input.  Instead of the raw text, each
line is kept structured; the correspondence with the text built by the
source is:

* `openB` is the opening line `digraph \x7b`;
* `nodeLabeled r lab col` is the line
  `"r"[label="lab", color="col", style=filled];`;
* `nodeElided r` is the line `"r"[label="..."];`;
* `nodePlain r lab` is the line `"r"[label="lab"];`;
* `edgeTo c p` is the line `"c" -> "p";`;
* `closeB` is the closing line `\x7d`. -/
inductive DotLine where
  | openB : DotLine
  | nodeLabeled (ref : Sha) (label : String) (color : String) : DotLine
  | nodeElided (ref : Sha) : DotLine
  | nodePlain (ref : Sha) (label : String) : DotLine
  | edgeTo (src tgt : Sha) : DotLine
  | closeB : DotLine
deriving DecidableEq

/-- Insertion sort used to embed the `sorted(...)` calls of `label_gen`. -/
def insertSorted (s : String) : List String → List String
  | [] => [s]
  | t :: rest => if s ≤ t then s :: t :: rest else t :: insertSorted s rest

/-- Embedding of Python `sorted` on lists of strings. -/
def sortedL : List String → List String
  | [] => []
  | s :: rest => insertSorted s (sortedL rest)

/-- `format_sha_one`: shorten a sha when a digit count below 40 is set. -/
def formatShaOne (digits : Option Nat) (s : Sha) : String :=
  match digits with
  | none => s
  | some d => if d = 40 then s else s.take d

/-- The keys iterated by `label_gen`: the union of branch and tag keys. -/
def labelKeys (g : CommitGraph) : List Sha :=
  (dkeys g.branches ++ dkeys g.tags).dedup

/-- The label list accumulated by `label_gen` for one key: sorted tag
names first, then sorted branch names. -/
def nodeNames (g : CommitGraph) (k : Sha) : List String :=
  (match dlookup g.tags k with
   | some ts => sortedL ts
   | none => []) ++
  (match dlookup g.branches k with
   | some bs => sortedL bs
   | none => [])

/-- The `case` computed by `label_gen`: 1 for a tag, plus 2 for a
branch. -/
def nodeCase (g : CommitGraph) (k : Sha) : Nat :=
  (if k ∈ dkeys g.tags then 1 else 0) +
  (if k ∈ dkeys g.branches then 2 else 0)

/-- The color string of `label_gen`, `"/pastel13/%d" % case`. -/
def nodeColor (g : CommitGraph) (k : Sha) : String :=
  "/pastel13/" ++ toString (nodeCase g k)

/-- The full label of one referenced node: names joined with the literal
two-character sequence backslash-n, plus the (possibly shortened) sha
when `sha_ones_on_labels` is set. -/
def nodeLabelText (g : CommitGraph) (showIds : Bool) (digits : Option Nat)
    (k : Sha) : String :=
  String.intercalate "\x5cn"
    (nodeNames g k ++ (if showIds then [formatShaOne digits k] else []))

/-- `_generate_dot_file`: the emitted lines, in emission order. -/
def generateDotFile (g : CommitGraph) (showIds : Bool)
    (digits : Option Nat) : List DotLine :=
  [DotLine.openB] ++
  ((labelKeys g).map fun k =>
    DotLine.nodeLabeled k (nodeLabelText g showIds digits k)
      (nodeColor g k)) ++
  (g.dotdot.map DotLine.nodeElided) ++
  (if digits.isSome ∧ digits ≠ some 40 then
    ((dkeys g.parents).filter fun s =>
      ¬ (hasLabel g s = true ∨ s ∈ g.dotdot)).map fun s =>
        DotLine.nodePlain s (formatShaOne digits s)
   else []) ++
  (g.parents.flatMap fun e => e.2.map fun p => DotLine.edgeTo e.1 p) ++
  [DotLine.closeB]

/-- The value of the `parents` attribute after `_generate_dot_file`
returns: the edge-emission loop `for child, self.parents in
self.parents.items()` rebinds the attribute to each parent list of the
iterated items, so afterwards it holds the last parent list — or the
original dict when the map is empty and the loop body never ran. -/
def parentsAfterRender (g : CommitGraph) : PMap ⊕ List Sha :=
  match g.parents.getLast? with
  | none => Sum.inl g.parents
  | some e => Sum.inr e.2

/-- State-passing view of `_generate_dot_file`: produced lines plus the
final value of the `parents` attribute. -/
def generateDotFileEffect (g : CommitGraph) (showIds : Bool)
    (digits : Option Nat) : List DotLine × (PMap ⊕ List Sha) :=
  (generateDotFile g showIds digits, parentsAfterRender g)

/-- Parent-edge relation of a parent map: `p` is a recorded parent of
`c`. -/
def stepRel (P : PMap) (c p : Sha) : Prop :=
  ∃ ps, dlookup P c = some ps ∧ p ∈ ps

/-- Modelled from the specification wording for the filter contract:
`j` is reachable from `x` along parent edges whose intermediate commits
(including `x` itself, unless `x = j`) are not interesting.  Together
with one leading parent edge this captures the closest interesting
ancestors of an interesting commit, collapsing uninteresting chains. -/
inductive ReachNI (P : PMap) (I : List Sha) : Sha → Sha → Prop where
  | refl (x : Sha) : ReachNI P I x x
  | cons {x y j : Sha} (hx : x ∉ I) (hs : stepRel P x y)
      (hr : ReachNI P I y j) : ReachNI P I x j

/-- The invariant maintained by the worklist loop for completeness:
every seen interesting commit is recorded, and every parent of a seen
non-interesting commit is seen or still on the worklist. -/
def searchINV (P : PMap) (I : List Sha) (l seen acc : List Sha) : Prop :=
  ∀ x ∈ seen,
    (x ∈ I → x ∈ acc) ∧ (x ∉ I → ∀ p, stepRel P x p → p ∈ seen ∨ p ∈ l)

/-- Remaining processing budget of the loop: one unit per unseen key of
the parent map plus one per parent it can still enqueue. -/
def remainingWork (P : PMap) (seen : List Sha) : Nat :=
  ((dkeys P).toFinset \ seen.toFinset).sum fun j => 1 + (dgetL P j).length

/-- Recognise a node-declaration line for a given id (a labeled, elided
or plain node statement whose quoted ref is that id). -/
def isNodeDeclFor (k : Sha) : DotLine → Bool
  | .nodeLabeled r _ _ => decide (r = k)
  | .nodeElided r => decide (r = k)
  | .nodePlain r _ => decide (r = k)
  | _ => false

/-- Chain a to b to c to d (d oldest), with only a and d tagged. -/
def chainPM : PMap := [("a", ["b"]), ("b", ["c"]), ("c", ["d"]), ("d", [])]

def chainTags : RefMap := [("a", ["ta"]), ("d", ["td"])]

def chainGraph : CommitGraph :=
  ⟨chainPM, [], chainTags, [], childMapping chainPM⟩

def chainI : List Sha := interestingList chainGraph true true false false false []

def chainD : PMap := [("a", ["d"]), ("d", [])]

/-- Rank function witnessing acyclicity of the chain. -/
def chainRank : Sha → Nat := fun s =>
  if s = "a" then 3 else if s = "b" then 2 else if s = "c" then 1 else 0

def c2PM : PMap := [("a", ["b"]), ("b", [])]

/-- The corrupted parent map of the claim: one entry whose parent is
nowhere reciprocated (no entry for y at all). -/
def corruptPM : PMap := [("x", ["y"])]

def c4PM : PMap := [("a", [])]

/-- A tag map with a tag on an id absent from the parent map. -/
def c4Tags : RefMap := [("a", ["t1"]), ("x", ["t2"])]

def c4Graph : CommitGraph := ⟨c4PM, [], c4Tags, [], childMapping c4PM⟩

def c4Res : CommitGraph :=
  ⟨[("a", []), ("x", [])], [], c4Tags, [],
    childMapping [("a", []), ("x", [])]⟩

def c4wPM : PMap := [("a", ["b"]), ("b", [])]

def c4wTags : RefMap := [("a", ["ta"]), ("b", ["tb"])]

def c4wGraph : CommitGraph := ⟨c4wPM, [], c4wTags, [], childMapping c4wPM⟩

def c5PM : PMap := [("a", ["x"])]

def c5Tags : RefMap := [("a", ["t"])]

def c5Graph : CommitGraph := ⟨c5PM, [], c5Tags, [], childMapping c5PM⟩

def c5wPM : PMap := [("a", [])]

def c5wTags : RefMap := [("a", ["t"]), ("x", ["u"])]

def c5wGraph : CommitGraph := ⟨c5wPM, [], c5wTags, [], childMapping c5wPM⟩

def c5wD : PMap := [("a", []), ("x", [])]

def idA : Sha := "aaaaaaaaaaaaaaaaaaaaaaaaaaaaaaaaaaaaaaaa"

def idB : Sha := "aaaaaaabaaaaaaaaaaaaaaaaaaaaaaaaaaaaaaaa"

def c6PM : PMap := [(idA, []), (idB, [])]

def c7Graph : CommitGraph :=
  ⟨[("a", ["b"]), ("b", [])], [("a", ["main"])], [("b", ["v1"])], [],
    childMapping [("a", ["b"]), ("b", [])]⟩

def c8Graph : CommitGraph :=
  ⟨[("a", ["b"]), ("b", [])], [], [], [],
    childMapping [("a", ["b"]), ("b", [])]⟩

def c9Graph : CommitGraph := ⟨[("a", [])], [], [("a", ["t"])], [],
  childMapping [("a", [])]⟩

/-! ## Theorems -/

theorem mem_insertL {x y : Sha} {l : List Sha} :
    y ∈ insertL x l ↔ y = x ∨ y ∈ l := by
  unfold insertL
  split
  · constructor
    · exact fun h => Or.inr h
    · rintro (rfl | h) <;> assumption
  · simp [or_comm]

theorem toFinset_insertL {x : Sha} {l : List Sha} :
    (insertL x l).toFinset = insert x l.toFinset := by
  ext y
  simp [mem_insertL, or_comm]

theorem nodup_insertL {x : Sha} {l : List Sha} (h : l.Nodup) :
    (insertL x l).Nodup := by
  unfold insertL
  split
  · exact h
  · next hx =>
    rw [List.nodup_append]
    refine ⟨h, List.nodup_singleton x, ?_⟩
    intro a ha hax
    simp only [List.mem_singleton] at hax
    exact hx (hax ▸ ha)

theorem dlookup_some_mem {β : Type} {m : List (Sha × β)} {k : Sha} {v : β}
    (h : dlookup m k = some v) : (k, v) ∈ m := by
  induction m with
  | nil => simp [dlookup] at h
  | cons e rest ih =>
    obtain ⟨k', v'⟩ := e
    unfold dlookup at h
    split at h
    · next heq => simp_all
    · exact List.mem_cons_of_mem _ (ih h)

theorem dlookup_isSome_iff {β : Type} {m : List (Sha × β)} {k : Sha} :
    (dlookup m k).isSome ↔ k ∈ dkeys m := by
  induction m with
  | nil => simp [dlookup, dkeys]
  | cons e rest ih =>
    obtain ⟨k', v'⟩ := e
    unfold dlookup
    split
    · next heq => subst heq; simp [dkeys]
    · next hne => simpa [dkeys, Ne.symm hne] using ih

theorem dlookup_eq_none_iff {β : Type} {m : List (Sha × β)} {k : Sha} :
    dlookup m k = none ↔ k ∉ dkeys m := by
  rw [← dlookup_isSome_iff, Option.not_isSome_iff_eq_none]

theorem dlookup_of_mem_nodup {β : Type} {m : List (Sha × β)} {k : Sha} {v : β}
    (hnd : (dkeys m).Nodup) (h : (k, v) ∈ m) : dlookup m k = some v := by
  induction m with
  | nil => simp at h
  | cons e rest ih =>
    obtain ⟨k', v'⟩ := e
    simp only [dkeys, List.map_cons, List.nodup_cons] at hnd
    rcases List.mem_cons.mp h with heq | hmem
    · injection heq with h1 h2
      subst h1
      subst h2
      simp [dlookup]
    · have hk : ¬ k' = k := by
        intro hkk
        exact hnd.1 (hkk ▸ (List.mem_map.mpr ⟨(k, v), hmem, rfl⟩))
      simp only [dlookup]
      rw [if_neg hk]
      exact ih hnd.2 hmem

theorem dlookup_dictInsert {β : Type} {m : List (Sha × β)} {k x : Sha} {v : β} :
    dlookup (dictInsert m k v) x = if x = k then some v else dlookup m x := by
  induction m with
  | nil =>
    simp only [dictInsert, dlookup]
    by_cases hx : x = k
    · subst hx; simp
    · simp [hx, Ne.symm hx]
  | cons e rest ih =>
    obtain ⟨k', v'⟩ := e
    unfold dictInsert
    split
    · next heq =>
      subst heq
      by_cases hx : x = k'
      · subst hx; simp [dlookup]
      · simp [dlookup, hx, Ne.symm hx]
    · next hne =>
      by_cases hx : k' = x
      · subst hx
        simp [dlookup, hne]
      · simp [dlookup, hx, ih]

theorem dkeys_dictInsert_eq {β : Type} {m : List (Sha × β)} {k : Sha} {v : β} :
    dkeys (dictInsert m k v) =
      if k ∈ dkeys m then dkeys m else dkeys m ++ [k] := by
  induction m with
  | nil => simp [dictInsert, dkeys]
  | cons e rest ih =>
    obtain ⟨k', v'⟩ := e
    unfold dictInsert
    split
    · next heq => subst heq; simp [dkeys]
    · next hne =>
      have hkk : ¬ k = k' := fun h => hne h.symm
      simp only [dkeys, List.map_cons] at ih ⊢
      rw [ih]
      by_cases hk : k ∈ List.map Prod.fst rest
      · rw [if_pos hk, if_pos (List.mem_cons_of_mem _ hk)]
      · have hnotc : k ∉ k' :: List.map Prod.fst rest := by
          intro hmem
          rcases List.mem_cons.mp hmem with h1 | h2
          · exact hkk h1
          · exact hk h2
        rw [if_neg hk, if_neg hnotc, List.cons_append]

theorem dkeys_dictInsert {β : Type} {m : List (Sha × β)} {k x : Sha} {v : β} :
    x ∈ dkeys (dictInsert m k v) ↔ x = k ∨ x ∈ dkeys m := by
  rw [dkeys_dictInsert_eq]
  split
  · next hk =>
    constructor
    · exact fun h => Or.inr h
    · rintro (rfl | h)
      · exact hk
      · exact h
  · simp [or_comm]

theorem nodup_dkeys_dictInsert {β : Type} {m : List (Sha × β)} {k : Sha} {v : β}
    (h : (dkeys m).Nodup) : (dkeys (dictInsert m k v)).Nodup := by
  rw [dkeys_dictInsert_eq]
  split
  · exact h
  · next hk =>
    rw [List.nodup_append]
    refine ⟨h, List.nodup_singleton k, ?_⟩
    intro a ha hax
    simp only [List.mem_singleton] at hax
    exact hk (hax ▸ ha)

theorem dlookup_cmAddChild {cm : CMap} {p c x : Sha} :
    dlookup (cmAddChild cm p c) x =
      if x = p then some (insertL c (dgetL cm p)) else dlookup cm x := by
  induction cm with
  | nil =>
    simp only [cmAddChild, dlookup, dgetL]
    by_cases hx : x = p
    · subst hx; simp [insertL]
    · simp [hx, Ne.symm hx]
  | cons e rest ih =>
    obtain ⟨k, v⟩ := e
    unfold cmAddChild
    split
    · next heq =>
      subst heq
      by_cases hx : x = k
      · subst hx; simp [dlookup, dgetL]
      · simp [dlookup, dgetL, hx, Ne.symm hx]
    · next hne =>
      by_cases hx : k = x
      · subst hx
        simp [dlookup, hne]
      · simp only [dlookup]
        rw [if_neg hx, if_neg hx, ih]
        by_cases hp : x = p
        · subst hp
          have : ¬ k = x := hx
          simp [dgetL, dlookup, this]
        · simp [hp]

theorem dlookup_cmEnsure {cm : CMap} {k x : Sha} :
    dlookup (cmEnsure cm k) x =
      if x = k then some (dgetL cm k) else dlookup cm x := by
  induction cm with
  | nil =>
    simp only [cmEnsure, dlookup, dgetL]
    by_cases hx : x = k
    · subst hx; simp
    · simp [hx, Ne.symm hx]
  | cons e rest ih =>
    obtain ⟨k', v⟩ := e
    unfold cmEnsure
    split
    · next heq =>
      subst heq
      by_cases hx : x = k'
      · subst hx; simp [dlookup, dgetL]
      · simp [dlookup, dgetL, hx, Ne.symm hx]
    · next hne =>
      by_cases hx : k' = x
      · subst hx
        simp [dlookup, hne]
      · simp only [dlookup]
        rw [if_neg hx, if_neg hx, ih]
        by_cases hk : x = k
        · subst hk
          have : ¬ k' = x := hx
          simp [dgetL, dlookup, this]
        · simp [hk]

theorem mem_dgetL_cmAddChild {cm : CMap} {p c x y : Sha} :
    y ∈ dgetL (cmAddChild cm p c) x ↔
      y ∈ dgetL cm x ∨ (x = p ∧ y = c) := by
  unfold dgetL
  rw [dlookup_cmAddChild]
  by_cases hx : x = p
  · subst hx
    simp [mem_insertL, dgetL]
    tauto
  · simp [hx]

theorem isSome_cmAddChild {cm : CMap} {p c x : Sha} :
    (dlookup (cmAddChild cm p c) x).isSome ↔
      (dlookup cm x).isSome ∨ x = p := by
  rw [dlookup_cmAddChild]
  by_cases hx : x = p <;> simp [hx]

theorem mem_dgetL_cmEnsure {cm : CMap} {k x y : Sha} :
    y ∈ dgetL (cmEnsure cm k) x ↔ y ∈ dgetL cm x := by
  unfold dgetL
  rw [dlookup_cmEnsure]
  by_cases hx : x = k
  · subst hx; simp [dgetL]
  · simp [hx]

theorem isSome_cmEnsure {cm : CMap} {k x : Sha} :
    (dlookup (cmEnsure cm k) x).isSome ↔
      (dlookup cm x).isSome ∨ x = k := by
  rw [dlookup_cmEnsure]
  by_cases hx : x = k <;> simp [hx]

theorem mem_dgetL_addParents {c x y : Sha} :
    ∀ {ps : List Sha} {cm : CMap},
      y ∈ dgetL (addParents cm c ps) x ↔
        y ∈ dgetL cm x ∨ (x ∈ ps ∧ y = c) := by
  intro ps
  induction ps with
  | nil => simp [addParents]
  | cons p rest ih =>
    intro cm
    simp only [addParents]
    rw [ih, mem_dgetL_cmAddChild]
    simp only [List.mem_cons]
    tauto

theorem isSome_addParents {c x : Sha} :
    ∀ {ps : List Sha} {cm : CMap},
      (dlookup (addParents cm c ps) x).isSome ↔
        (dlookup cm x).isSome ∨ x ∈ ps := by
  intro ps
  induction ps with
  | nil => simp [addParents]
  | cons p rest ih =>
    intro cm
    simp only [addParents]
    rw [ih, isSome_cmAddChild]
    simp only [List.mem_cons]
    tauto

theorem mem_dgetL_childMappingAux {x y : Sha} :
    ∀ {pm : PMap} {cm : CMap},
      y ∈ dgetL (childMappingAux cm pm) x ↔
        y ∈ dgetL cm x ∨ childSpec pm x y := by
  intro pm
  induction pm with
  | nil => simp [childMappingAux, childSpec]
  | cons e rest ih =>
    obtain ⟨c, ps⟩ := e
    intro cm
    simp only [childMappingAux]
    rw [ih, mem_dgetL_cmEnsure, mem_dgetL_addParents]
    constructor
    · rintro ((h | ⟨hx, hy⟩) | h)
      · exact Or.inl h
      · exact Or.inr ⟨(c, ps), List.mem_cons_self .., by simp [hy, hx]⟩
      · obtain ⟨e, he, h1, h2⟩ := h
        exact Or.inr ⟨e, List.mem_cons_of_mem _ he, h1, h2⟩
    · rintro (h | ⟨e, he, h1, h2⟩)
      · exact Or.inl (Or.inl h)
      · rcases List.mem_cons.mp he with rfl | hmem
        · exact Or.inl (Or.inr ⟨h2, h1.symm⟩)
        · exact Or.inr ⟨e, hmem, h1, h2⟩

theorem isSome_childMappingAux {x : Sha} :
    ∀ {pm : PMap} {cm : CMap},
      (dlookup (childMappingAux cm pm) x).isSome ↔
        (dlookup cm x).isSome ∨ x ∈ dkeys pm ∨ x ∈ pvalues pm := by
  intro pm
  induction pm with
  | nil => simp [childMappingAux, dkeys, pvalues]
  | cons e rest ih =>
    obtain ⟨c, ps⟩ := e
    intro cm
    simp only [childMappingAux]
    rw [ih, isSome_cmEnsure, isSome_addParents]
    simp only [dkeys, pvalues, List.map_cons, List.mem_cons, List.flatMap_cons,
      List.mem_append]
    tauto

theorem mem_dgetL_childMapping {pm : PMap} {x y : Sha} :
    y ∈ dgetL (childMapping pm) x ↔ childSpec pm x y := by
  unfold childMapping
  rw [mem_dgetL_childMappingAux]
  simp [dgetL, dlookup]

theorem isSome_childMapping {pm : PMap} {x : Sha} :
    (dlookup (childMapping pm) x).isSome ↔
      x ∈ dkeys pm ∨ x ∈ pvalues pm := by
  unfold childMapping
  rw [isSome_childMappingAux]
  simp [dlookup]

theorem mem_pvalues {pm : PMap} {p : Sha} :
    p ∈ pvalues pm ↔ ∃ e ∈ pm, p ∈ e.2 := by
  simp [pvalues, List.mem_flatMap]

theorem dkeys_cmAddChild_eq {cm : CMap} {p c : Sha} :
    dkeys (cmAddChild cm p c) =
      if p ∈ dkeys cm then dkeys cm else dkeys cm ++ [p] := by
  induction cm with
  | nil => simp [cmAddChild, dkeys]
  | cons e rest ih =>
    obtain ⟨k, v⟩ := e
    unfold cmAddChild
    split
    · next heq => subst heq; simp [dkeys]
    · next hne =>
      have hkk : ¬ p = k := fun h => hne h.symm
      simp only [dkeys, List.map_cons] at ih ⊢
      rw [ih]
      by_cases hp : p ∈ List.map Prod.fst rest
      · rw [if_pos hp, if_pos (List.mem_cons_of_mem _ hp)]
      · have hnotc : p ∉ k :: List.map Prod.fst rest := by
          intro hmem
          rcases List.mem_cons.mp hmem with h1 | h2
          · exact hkk h1
          · exact hp h2
        rw [if_neg hp, if_neg hnotc, List.cons_append]

theorem dkeys_cmEnsure_eq {cm : CMap} {k : Sha} :
    dkeys (cmEnsure cm k) =
      if k ∈ dkeys cm then dkeys cm else dkeys cm ++ [k] := by
  induction cm with
  | nil => simp [cmEnsure, dkeys]
  | cons e rest ih =>
    obtain ⟨k', v⟩ := e
    unfold cmEnsure
    split
    · next heq => subst heq; simp [dkeys]
    · next hne =>
      have hkk : ¬ k = k' := fun h => hne h.symm
      simp only [dkeys, List.map_cons] at ih ⊢
      rw [ih]
      by_cases hk : k ∈ List.map Prod.fst rest
      · rw [if_pos hk, if_pos (List.mem_cons_of_mem _ hk)]
      · have hnotc : k ∉ k' :: List.map Prod.fst rest := by
          intro hmem
          rcases List.mem_cons.mp hmem with h1 | h2
          · exact hkk h1
          · exact hk h2
        rw [if_neg hk, if_neg hnotc, List.cons_append]

theorem nodup_append_singleton {l : List Sha} {x : Sha} (h : l.Nodup)
    (hx : x ∉ l) : (l ++ [x]).Nodup := by
  rw [List.nodup_append]
  refine ⟨h, List.nodup_singleton x, ?_⟩
  intro a ha hax
  simp only [List.mem_singleton] at hax
  exact hx (hax ▸ ha)

theorem nodup_dkeys_cmAddChild {cm : CMap} {p c : Sha}
    (h : (dkeys cm).Nodup) : (dkeys (cmAddChild cm p c)).Nodup := by
  rw [dkeys_cmAddChild_eq]
  split
  · exact h
  · next hp => exact nodup_append_singleton h hp

theorem nodup_dkeys_cmEnsure {cm : CMap} {k : Sha}
    (h : (dkeys cm).Nodup) : (dkeys (cmEnsure cm k)).Nodup := by
  rw [dkeys_cmEnsure_eq]
  split
  · exact h
  · next hk => exact nodup_append_singleton h hk

theorem nodup_dkeys_addParents {c : Sha} :
    ∀ {ps : List Sha} {cm : CMap}, (dkeys cm).Nodup →
      (dkeys (addParents cm c ps)).Nodup := by
  intro ps
  induction ps with
  | nil => exact fun h => h
  | cons p rest ih =>
    intro cm h
    exact ih (nodup_dkeys_cmAddChild h)

theorem nodup_dkeys_childMappingAux :
    ∀ {pm : PMap} {cm : CMap}, (dkeys cm).Nodup →
      (dkeys (childMappingAux cm pm)).Nodup := by
  intro pm
  induction pm with
  | nil => exact fun h => h
  | cons e rest ih =>
    obtain ⟨c, ps⟩ := e
    intro cm h
    exact ih (nodup_dkeys_cmEnsure (nodup_dkeys_addParents h))

theorem nodup_dkeys_childMapping {pm : PMap} :
    (dkeys (childMapping pm)).Nodup :=
  nodup_dkeys_childMappingAux (by simp [dkeys])

theorem childSpec_iff_dlookup {pm : PMap} {x y : Sha}
    (hnd : (dkeys pm).Nodup) :
    childSpec pm x y ↔ ∃ ps, dlookup pm y = some ps ∧ x ∈ ps := by
  constructor
  · rintro ⟨e, he, h1, h2⟩
    exact ⟨e.2, by rw [← h1]; exact dlookup_of_mem_nodup hnd (by simpa using he),
      h2⟩
  · rintro ⟨ps, hps, hx⟩
    exact ⟨(y, ps), dlookup_some_mem hps, rfl, hx⟩

/-- The verification pass of `__init__` always succeeds on a child map
that was freshly derived from the parent map. -/
theorem verifyChildMapping_derived {pm : PMap} (hnd : (dkeys pm).Nodup) :
    verifyChildMapping pm (childMapping pm) = true := by
  unfold verifyChildMapping
  rw [Bool.and_eq_true]
  constructor
  · rw [List.all_eq_true]
    intro e he
    rw [List.all_eq_true]
    intro p hp
    have hpv : p ∈ pvalues pm := mem_pvalues.mpr ⟨e, he, hp⟩
    have hsome : (dlookup (childMapping pm) p).isSome :=
      isSome_childMapping.mpr (Or.inr hpv)
    obtain ⟨cs, hcs⟩ := Option.isSome_iff_exists.mp hsome
    rw [hcs]
    rw [List.all_eq_true]
    intro c hc
    have hspec : childSpec pm p c := by
      rw [← mem_dgetL_childMapping]
      simp [dgetL, hcs, hc]
    obtain ⟨ps, hps, hmem⟩ := (childSpec_iff_dlookup hnd).mp hspec
    rw [hps]
    simpa using hmem
  · rw [List.all_eq_true]
    intro e he
    rw [List.all_eq_true]
    intro c hc
    have hcd : c ∈ dgetL (childMapping pm) e.1 := by
      have : dlookup (childMapping pm) e.1 = some e.2 :=
        dlookup_of_mem_nodup nodup_dkeys_childMapping (by simpa using he)
      simp [dgetL, this, hc]
    have hspec : childSpec pm e.1 c := mem_dgetL_childMapping.mp hcd
    obtain ⟨ps, hps, hmem⟩ := (childSpec_iff_dlookup hnd).mp hspec
    rw [hps]
    rw [List.all_eq_true]
    intro p hp
    have hpv : p ∈ pvalues pm :=
      mem_pvalues.mpr ⟨(c, ps), dlookup_some_mem hps, hp⟩
    have hsome : (dlookup (childMapping pm) p).isSome :=
      isSome_childMapping.mpr (Or.inr hpv)
    obtain ⟨cs, hcs⟩ := Option.isSome_iff_exists.mp hsome
    rw [hcs]
    have : c ∈ dgetL (childMapping pm) p := by
      rw [mem_dgetL_childMapping]
      exact ⟨(c, ps), dlookup_some_mem hps, rfl, hp⟩
    simp only [dgetL, hcs, Option.getD_some] at this
    simpa using this

/-- Construction never fails: the constructor always verifies a child map
it has itself derived from the parent map. -/
theorem mkCommitGraph_eq_some {pm : PMap} {bm tm : RefMap}
    (hnd : (dkeys pm).Nodup) :
    mkCommitGraph pm bm tm = some ⟨pm, bm, tm, [], childMapping pm⟩ := by
  unfold mkCommitGraph
  rw [if_pos (verifyChildMapping_derived hnd)]

theorem ReachNI.snoc {P : PMap} {I : List Sha} {x y z : Sha}
    (h : ReachNI P I x y) (hy : y ∉ I) (hs : stepRel P y z) :
    ReachNI P I x z := by
  induction h with
  | refl => exact ReachNI.cons hy hs (ReachNI.refl z)
  | cons hx hst _ ih => exact ReachNI.cons hx hst (ih hy hs)

theorem mem_startVisit_iff {P : PMap} {i x : Sha} :
    x ∈ startVisit P i ↔ stepRel P i x := by
  unfold startVisit stepRel
  cases h : dlookup P i <;> simp [h]

/-- Soundness of the worklist loop: with every worklist entry satisfying
an expansion-closed origin predicate, every result element is an
interesting commit satisfying it. -/
theorem searchFuel_sound {P : PMap} {I : List Sha} {O : Sha → Prop}
    (hO : ∀ x, O x → x ∉ I → ∀ p, stepRel P x p → O p) :
    ∀ {n : Nat} {l seen acc res : List Sha},
      searchFuel P I n l seen acc = .ok res →
      (∀ x ∈ l, O x) → (∀ x ∈ acc, x ∈ I ∧ O x) →
      ∀ x ∈ res, x ∈ I ∧ O x := by
  intro n
  induction n with
  | zero =>
    intro l seen acc res h
    simp [searchFuel] at h
  | succ n ih =>
    intro l seen acc res h hl hacc
    cases l with
    | nil =>
      simp only [searchFuel] at h
      injection h with h
      exact h ▸ hacc
    | cons j rest =>
      simp only [searchFuel] at h
      split at h
      · exact ih h (fun x hx => hl x (List.mem_cons_of_mem _ hx)) hacc
      · split at h
        · next hjI =>
          refine ih h (fun x hx => hl x (List.mem_cons_of_mem _ hx)) ?_
          intro x hx
          rcases mem_insertL.mp hx with rfl | hx'
          · exact ⟨hjI, hl x (List.mem_cons_self ..)⟩
          · exact hacc x hx'
        · next hjI =>
          split at h
          · next ps hps =>
            refine ih h ?_ hacc
            intro x hx
            rcases List.mem_append.mp hx with hx' | hx'
            · exact hl x (List.mem_cons_of_mem _ hx')
            · exact hO j (hl j (List.mem_cons_self ..)) hjI x ⟨ps, hps, hx'⟩
          · exact absurd h (by simp)

/-- Completeness of the worklist loop: any interesting commit reachable
through non-interesting commits from a worklist or seen entry ends up in
the result. -/
theorem searchFuel_complete {P : PMap} {I : List Sha} :
    ∀ {n : Nat} {l seen acc res : List Sha},
      searchFuel P I n l seen acc = .ok res →
      searchINV P I l seen acc →
      ∀ x, (x ∈ l ∨ x ∈ seen) → ∀ j, ReachNI P I x j → j ∈ I → j ∈ res := by
  intro n
  induction n with
  | zero =>
    intro l seen acc res h
    simp [searchFuel] at h
  | succ n ih =>
    intro l seen acc res h hinv
    cases l with
    | nil =>
      simp only [searchFuel] at h
      injection h with h
      subst h
      intro x hx j hr
      have hxs : x ∈ seen := by
        rcases hx with hx | hx
        · simp at hx
        · exact hx
      clear hx
      revert hxs
      induction hr with
      | refl z =>
        intro hz hzI
        exact (hinv z hz).1 hzI
      | cons hx hs _ ihr =>
        intro hxs hjI
        rcases (hinv _ hxs).2 hx _ hs with hy | hy
        · exact ihr hy hjI
        · simp at hy
    | cons j' rest =>
      simp only [searchFuel] at h
      split at h
      · next hjs =>
        intro x hx jj hr hjI
        refine ih h ?_ x ?_ jj hr hjI
        · intro y hy
          refine ⟨(hinv y hy).1, fun hyI p hp => ?_⟩
          rcases (hinv y hy).2 hyI p hp with h1 | h1
          · exact Or.inl h1
          · rcases List.mem_cons.mp h1 with rfl | h2
            · exact Or.inl hjs
            · exact Or.inr h2
        · rcases hx with hx | hx
          · rcases List.mem_cons.mp hx with rfl | h2
            · exact Or.inr hjs
            · exact Or.inl h2
          · exact Or.inr hx
      · next hjs =>
        split at h
        · next hjI' =>
          intro x hx jj hr hjI
          refine ih h ?_ x ?_ jj hr hjI
          · intro y hy
            rcases mem_insertL.mp hy with rfl | hy'
            · exact ⟨fun _ => mem_insertL.mpr (Or.inl rfl),
                fun hyn => absurd hjI' hyn⟩
            · refine ⟨fun hyI => mem_insertL.mpr (Or.inr ((hinv y hy').1 hyI)),
                fun hyn p hp => ?_⟩
              rcases (hinv y hy').2 hyn p hp with h1 | h1
              · exact Or.inl (mem_insertL.mpr (Or.inr h1))
              · rcases List.mem_cons.mp h1 with rfl | h2
                · exact Or.inl (mem_insertL.mpr (Or.inl rfl))
                · exact Or.inr h2
          · rcases hx with hx | hx
            · rcases List.mem_cons.mp hx with rfl | h2
              · exact Or.inr (mem_insertL.mpr (Or.inl rfl))
              · exact Or.inl h2
            · exact Or.inr (mem_insertL.mpr (Or.inr hx))
        · next hjI' =>
          split at h
          · next ps hps =>
            intro x hx jj hr hjI
            refine ih h ?_ x ?_ jj hr hjI
            · intro y hy
              rcases mem_insertL.mp hy with rfl | hy'
              · refine ⟨fun hyI => absurd hyI hjI', fun _ p hp => ?_⟩
                obtain ⟨ps', hps', hmem⟩ := hp
                rw [hps] at hps'
                injection hps' with hps'
                exact Or.inr (List.mem_append.mpr (Or.inr (hps' ▸ hmem)))
              · refine ⟨fun hyI => (hinv y hy').1 hyI, fun hyn p hp => ?_⟩
                rcases (hinv y hy').2 hyn p hp with h1 | h1
                · exact Or.inl (mem_insertL.mpr (Or.inr h1))
                · rcases List.mem_cons.mp h1 with rfl | h2
                  · exact Or.inl (mem_insertL.mpr (Or.inl rfl))
                  · exact Or.inr (List.mem_append.mpr (Or.inl h2))
            · rcases hx with hx | hx
              · rcases List.mem_cons.mp hx with rfl | h2
                · exact Or.inr (mem_insertL.mpr (Or.inl rfl))
                · exact Or.inl (List.mem_append.mpr (Or.inl h2))
              · exact Or.inr (mem_insertL.mpr (Or.inr hx))
          · exact absurd h (by simp)

theorem remainingWork_insertL_le {P : PMap} {seen : List Sha} {j : Sha} :
    remainingWork P (insertL j seen) ≤ remainingWork P seen := by
  unfold remainingWork
  apply Finset.sum_le_sum_of_subset
  apply Finset.sdiff_subset_sdiff (le_refl _)
  rw [toFinset_insertL]
  exact Finset.subset_insert _ _

theorem remainingWork_insertL_eq {P : PMap} {seen : List Sha} {j : Sha}
    (hk : j ∈ dkeys P) (hs : j ∉ seen) :
    remainingWork P seen =
      1 + (dgetL P j).length + remainingWork P (insertL j seen) := by
  unfold remainingWork
  have hj : j ∈ (dkeys P).toFinset \ seen.toFinset := by
    rw [Finset.mem_sdiff]
    exact ⟨List.mem_toFinset.mpr hk, fun hc => hs (List.mem_toFinset.mp hc)⟩
  have hset : (dkeys P).toFinset \ (insertL j seen).toFinset =
      ((dkeys P).toFinset \ seen.toFinset).erase j := by
    rw [toFinset_insertL]
    ext a
    simp only [Finset.mem_sdiff, Finset.mem_erase, Finset.mem_insert]
    tauto
  rw [hset, ← Finset.add_sum_erase _ _ hj]

theorem searchFuel_ne_fuelOut {P : PMap} {I : List Sha} :
    ∀ {n : Nat} {l seen acc : List Sha},
      l.length + remainingWork P seen + 1 ≤ n →
      searchFuel P I n l seen acc ≠ .fuelOut := by
  intro n
  induction n with
  | zero =>
    intro l seen acc hb
    exact absurd hb (by omega)
  | succ n ih =>
    intro l seen acc hb
    cases l with
    | nil => simp [searchFuel]
    | cons j rest =>
      simp only [searchFuel]
      split
      · refine ih ?_
        simp only [List.length_cons] at hb
        omega
      · next hjs =>
        split
        · refine ih ?_
          have hle := @remainingWork_insertL_le P seen j
          simp only [List.length_cons] at hb
          omega
        · split
          · next ps hps =>
            refine ih ?_
            have hk : j ∈ dkeys P :=
              dlookup_isSome_iff.mp (by simp [hps])
            have heq := @remainingWork_insertL_eq P seen j hk hjs
            have hget : dgetL P j = ps := by simp [dgetL, hps]
            rw [hget] at heq
            simp only [List.length_cons] at hb
            simp only [List.length_append]
            omega
          · simp

theorem searchFuel_ne_keyErr {P : PMap} {I : List Sha}
    (hcl : ∀ p ∈ pvalues P, p ∉ I → p ∈ dkeys P) :
    ∀ {n : Nat} {l seen acc : List Sha},
      (∀ x ∈ l, x ∈ pvalues P) →
      searchFuel P I n l seen acc ≠ .keyErr := by
  intro n
  induction n with
  | zero =>
    intro l seen acc _
    simp [searchFuel]
  | succ n ih =>
    intro l seen acc hl
    cases l with
    | nil => simp [searchFuel]
    | cons j rest =>
      simp only [searchFuel]
      split
      · exact ih fun x hx => hl x (List.mem_cons_of_mem _ hx)
      · split
        · exact ih fun x hx => hl x (List.mem_cons_of_mem _ hx)
        · next hjI =>
          split
          · next ps hps =>
            refine ih ?_
            intro x hx
            rcases List.mem_append.mp hx with hx' | hx'
            · exact hl x (List.mem_cons_of_mem _ hx')
            · exact mem_pvalues.mpr ⟨(j, ps), dlookup_some_mem hps, hx'⟩
          · next hnone =>
            have hk : j ∈ dkeys P :=
              hcl j (hl j (List.mem_cons_self ..)) hjI
            rw [dlookup_eq_none_iff] at hnone
            exact absurd hk hnone

theorem search_eq_some_iff {P : PMap} {I l res : List Sha} :
    search P I l = some res ↔
      searchFuel P I (searchBound P l) l [] [] = .ok res := by
  unfold search
  cases h : searchFuel P I (searchBound P l) l [] [] <;> simp [h]

theorem searchBound_eq {P : PMap} {l : List Sha} :
    searchBound P l = l.length + remainingWork P [] + 1 := by
  simp [searchBound, remainingWork, dgetL]

theorem search_isSome_of_closed {P : PMap} {I l : List Sha}
    (hcl : ∀ p ∈ pvalues P, p ∉ I → p ∈ dkeys P)
    (hl : ∀ x ∈ l, x ∈ pvalues P) : (search P I l).isSome := by
  unfold search
  cases hres : searchFuel P I (searchBound P l) l [] [] with
  | fuelOut =>
    exact absurd hres (searchFuel_ne_fuelOut (le_of_eq searchBound_eq.symm))
  | keyErr => exact absurd hres (searchFuel_ne_keyErr hcl hl)
  | ok r => simp

/-- Full characterisation of a successful search: the result contains
exactly the interesting commits reachable from a worklist entry through
non-interesting commits. -/
theorem search_mem_iff {P : PMap} {I l res : List Sha}
    (h : search P I l = some res) (j : Sha) :
    j ∈ res ↔ j ∈ I ∧ ∃ x ∈ l, ReachNI P I x j := by
  have h' := search_eq_some_iff.mp h
  constructor
  · intro hj
    refine searchFuel_sound (O := fun y => ∃ x ∈ l, ReachNI P I x y)
      ?_ h' ?_ ?_ j hj
    · rintro y ⟨x, hx, hr⟩ hyI p hp
      exact ⟨x, hx, hr.snoc hyI hp⟩
    · exact fun x hx => ⟨x, hx, ReachNI.refl x⟩
    · intro x hx
      simp at hx
  · rintro ⟨hjI, x, hx, hr⟩
    refine searchFuel_complete h' ?_ x (Or.inl hx) j hr hjI
    intro y hy
    simp at hy

theorem searchFuel_allI {P : PMap} {I : List Sha} :
    ∀ {n : Nat} {l seen acc res : List Sha},
      searchFuel P I n l seen acc = .ok res →
      (∀ x ∈ l, x ∈ I) → (∀ x ∈ seen, x ∈ acc) →
      ∀ j, j ∈ res ↔ j ∈ acc ∨ j ∈ l := by
  intro n
  induction n with
  | zero =>
    intro l seen acc res h
    simp [searchFuel] at h
  | succ n ih =>
    intro l seen acc res h hl hsa
    cases l with
    | nil =>
      simp only [searchFuel] at h
      injection h with h
      subst h
      simp
    | cons j' rest =>
      simp only [searchFuel] at h
      split at h
      · next hjs =>
        intro j
        rw [ih h (fun x hx => hl x (List.mem_cons_of_mem _ hx)) hsa j]
        have hja : j' ∈ acc := hsa j' hjs
        simp only [List.mem_cons]
        constructor
        · rintro (h1 | h1)
          · exact Or.inl h1
          · exact Or.inr (Or.inr h1)
        · rintro (h1 | rfl | h1)
          · exact Or.inl h1
          · exact Or.inl hja
          · exact Or.inr h1
      · split at h
        · next hjI =>
          intro j
          rw [ih h (fun x hx => hl x (List.mem_cons_of_mem _ hx)) ?_ j]
          · simp only [mem_insertL, List.mem_cons]
            tauto
          · intro x hx
            rcases mem_insertL.mp hx with rfl | hx'
            · exact mem_insertL.mpr (Or.inl rfl)
            · exact mem_insertL.mpr (Or.inr (hsa x hx'))
        · next hjI =>
          exact absurd (hl j' (List.mem_cons_self ..)) hjI

theorem search_allI {P : PMap} {I l res : List Sha}
    (h : search P I l = some res) (hl : ∀ x ∈ l, x ∈ I) (j : Sha) :
    j ∈ res ↔ j ∈ l := by
  have h' := search_eq_some_iff.mp h
  have := searchFuel_allI h' hl (fun x hx => by simp at hx) j
  simpa using this

theorem mem_startVisit_pvalues {P : PMap} {i x : Sha}
    (h : x ∈ startVisit P i) : x ∈ pvalues P := by
  unfold startVisit at h
  cases hl : dlookup P i with
  | none => rw [hl] at h; simp at h
  | some ps =>
    rw [hl] at h
    simp only [Option.getD_some] at h
    exact mem_pvalues.mpr ⟨(i, ps), dlookup_some_mem hl, h⟩

theorem filterStepDict_isSome {P : PMap} {I : List Sha} :
    ∀ {rest : List Sha} {d : PMap},
      (filterStepDict P I rest d).isSome ↔
        ∀ i ∈ rest, (search P I (startVisit P i)).isSome := by
  intro rest
  induction rest with
  | nil => simp [filterStepDict]
  | cons i0 rest ih =>
    intro d
    simp only [filterStepDict]
    cases hs : search P I (startVisit P i0) with
    | none =>
      simp only [Option.isSome_none]
      constructor
      · intro hfalse; cases hfalse
      · intro hall
        have := hall i0 (List.mem_cons_self ..)
        rw [hs] at this
        cases this
    | some r =>
      rw [ih]
      constructor
      · intro hall i hi
        rcases List.mem_cons.mp hi with rfl | hi'
        · simp [hs]
        · exact hall i hi'
      · intro hall i hi
        exact hall i (List.mem_cons_of_mem _ hi)

theorem filterStepDict_lookup {P : PMap} {I : List Sha} :
    ∀ {rest : List Sha} {d d' : PMap},
      filterStepDict P I rest d = some d' →
      ∀ i : Sha,
        (i ∈ rest → ∃ r, search P I (startVisit P i) = some r ∧
          dlookup d' i = some r) ∧
        (i ∉ rest → dlookup d' i = dlookup d i) := by
  intro rest
  induction rest with
  | nil =>
    intro d d' h i
    simp only [filterStepDict] at h
    injection h with h
    subst h
    simp
  | cons i0 rest ih =>
    intro d d' h i
    simp only [filterStepDict] at h
    cases hs : search P I (startVisit P i0) with
    | none => rw [hs] at h; cases h
    | some r0 =>
      rw [hs] at h
      constructor
      · intro hi
        by_cases hmem : i ∈ rest
        · exact (ih h i).1 hmem
        · have hi0 : i = i0 := by
            rcases List.mem_cons.mp hi with h1 | h1
            · exact h1
            · exact absurd h1 hmem
          subst hi0
          refine ⟨r0, hs, ?_⟩
          rw [(ih h i).2 hmem, dlookup_dictInsert]
          simp
      · intro hi
        have hi' : i ∉ rest := fun hc => hi (List.mem_cons_of_mem _ hc)
        have hne : ¬ i = i0 := fun hc => hi (hc ▸ List.mem_cons_self ..)
        rw [(ih h i).2 hi', dlookup_dictInsert, if_neg hne]

theorem filterStepDict_keys {P : PMap} {I : List Sha} :
    ∀ {rest : List Sha} {d d' : PMap},
      filterStepDict P I rest d = some d' →
      ∀ x, x ∈ dkeys d' ↔ x ∈ rest ∨ x ∈ dkeys d := by
  intro rest
  induction rest with
  | nil =>
    intro d d' h x
    simp only [filterStepDict] at h
    injection h with h
    subst h
    simp
  | cons i0 rest ih =>
    intro d d' h x
    simp only [filterStepDict] at h
    cases hs : search P I (startVisit P i0) with
    | none => rw [hs] at h; cases h
    | some r0 =>
      rw [hs] at h
      rw [ih h x, dkeys_dictInsert]
      simp only [List.mem_cons]
      tauto

theorem filterStepDict_nodup {P : PMap} {I : List Sha} :
    ∀ {rest : List Sha} {d d' : PMap},
      filterStepDict P I rest d = some d' →
      (dkeys d).Nodup → (dkeys d').Nodup := by
  intro rest
  induction rest with
  | nil =>
    intro d d' h hnd
    simp only [filterStepDict] at h
    injection h with h
    exact h ▸ hnd
  | cons i0 rest ih =>
    intro d d' h hnd
    simp only [filterStepDict] at h
    cases hs : search P I (startVisit P i0) with
    | none => rw [hs] at h; cases h
    | some r0 =>
      rw [hs] at h
      exact ih h (nodup_dkeys_dictInsert hnd)

theorem filterParents_keys {P : PMap} {I : List Sha} {d : PMap}
    (h : filterParents P I = some d) (x : Sha) :
    x ∈ dkeys d ↔ x ∈ I := by
  have := filterStepDict_keys h x
  simpa [dkeys] using this

theorem filterParents_nodup {P : PMap} {I : List Sha} {d : PMap}
    (h : filterParents P I = some d) : (dkeys d).Nodup :=
  filterStepDict_nodup h (by simp [dkeys])

theorem filterParents_lookup_mem {P : PMap} {I : List Sha} {d : PMap}
    (h : filterParents P I = some d) {i : Sha} (hi : i ∈ I) :
    ∃ r, search P I (startVisit P i) = some r ∧ dlookup d i = some r :=
  (filterStepDict_lookup h i).1 hi

theorem filterParents_lookup_isSome {P : PMap} {I : List Sha} {d : PMap}
    (h : filterParents P I = some d) (i : Sha) :
    (dlookup d i).isSome ↔ i ∈ I := by
  rw [dlookup_isSome_iff]
  exact filterParents_keys h i

theorem filterParents_isSome_iff {P : PMap} {I : List Sha} :
    (filterParents P I).isSome ↔
      ∀ i ∈ I, (search P I (startVisit P i)).isSome :=
  filterStepDict_isSome

theorem searchFuel_nil_pos {P : PMap} {I : List Sha} {seen acc : List Sha}
    {n : Nat} (hn : 0 < n) : searchFuel P I n [] seen acc = .ok acc := by
  cases n with
  | zero => omega
  | succ n => simp [searchFuel]

theorem search_nil {P : PMap} {I : List Sha} : search P I [] = some [] := by
  unfold search
  rw [searchFuel_nil_pos (by simp [searchBound])]

theorem childSpec_iff_mem_dgetL {m : PMap} {x y : Sha}
    (hnd : (dkeys m).Nodup) : childSpec m x y ↔ x ∈ dgetL m y := by
  rw [childSpec_iff_dlookup hnd]
  unfold dgetL
  cases h : dlookup m y <;> simp [h]

/-- C1: for every acyclic parent map (acyclicity witnessed by a rank
function decreasing along parent edges) and every interesting set
assembled from the filter flags and additional ids, the parent map of
the graph returned by the filter has the interesting commits as keys and
maps each interesting commit i to exactly the set of interesting commits
reachable from i along the parent relation without passing through
another interesting commit first. -/
theorem spec_c1_filter_nearest_interesting
    (g : CommitGraph) (b t r m bf : Bool) (add : List Sha)
    (f : Sha → Nat)
    (hacyc : ∀ e ∈ g.parents, ∀ p ∈ e.2, f p < f e.1)
    (d : PMap)
    (hd : filterParents g.parents
      (interestingList g b t r m bf add) = some d) :
    (∀ i, (dlookup d i).isSome ↔ i ∈ interestingList g b t r m bf add) ∧
    (∀ i s, dlookup d i = some s → ∀ j,
      j ∈ s ↔ j ∈ interestingList g b t r m bf add ∧
        ∃ p, stepRel g.parents i p ∧
          ReachNI g.parents (interestingList g b t r m bf add) p j) := by
  refine ⟨filterParents_lookup_isSome hd, ?_⟩
  intro i s hs j
  have hiI : i ∈ interestingList g b t r m bf add := by
    rw [← filterParents_lookup_isSome hd i, hs]
    simp
  obtain ⟨rr, hsr, hlk⟩ := filterParents_lookup_mem hd hiI
  rw [hs] at hlk
  injection hlk with hlk
  subst hlk
  rw [search_mem_iff hsr j]
  constructor
  · rintro ⟨hjI, x, hx, hr⟩
    exact ⟨hjI, x, mem_startVisit_iff.mp hx, hr⟩
  · rintro ⟨hjI, p, hst, hr⟩
    exact ⟨hjI, p, mem_startVisit_iff.mpr hst, hr⟩

/-- C2: the derived child map is the exact inverse of the parent map,
and every key of the parent map is a key of the child map. -/
theorem spec_c2_child_map_inverse (pm : PMap) (hnd : (dkeys pm).Nodup) :
    (∀ c p : Sha, p ∈ dgetL pm c ↔ c ∈ dgetL (childMapping pm) p) ∧
    (∀ k ∈ dkeys pm, k ∈ dkeys (childMapping pm)) := by
  constructor
  · intro c p
    rw [mem_dgetL_childMapping, childSpec_iff_dlookup hnd]
    unfold dgetL
    cases h : dlookup pm c <;> simp [h]
  · intro k hk
    rw [← dlookup_isSome_iff, isSome_childMapping]
    exact Or.inl hk

/-- C3 (amended): construction never raises.  The constructor always
derives the child map freshly from the given parent map, and the
verification pass accepts every freshly derived pair, so constructing a
CommitGraph succeeds for every parent map. -/
theorem spec_c3_construction_never_fails (pm : PMap) (bm tm : RefMap)
    (hnd : (dkeys pm).Nodup) :
    mkCommitGraph pm bm tm = some ⟨pm, bm, tm, [], childMapping pm⟩ ∧
    verifyChildMapping pm (childMapping pm) = true :=
  ⟨mkCommitGraph_eq_some hnd, verifyChildMapping_derived hnd⟩

/-- C9: the filter call leaves the receiver unchanged (the method assigns
no attribute), and the branch and tag maps of the returned graph are
copies equal in value to those of the receiver. -/
theorem spec_c9_filter_no_shared_state (g : CommitGraph)
    (b t r m bf : Bool) (add : List Sha) :
    (filterCGEffect g b t r m bf add).2 = g ∧
    ∀ g', filterCG g b t r m bf add = some g' →
      g'.branches = g.branches ∧ g'.tags = g.tags := by
  refine ⟨rfl, ?_⟩
  intro g' h
  unfold filterCG at h
  cases hfp : filterParents g.parents
      (interestingList g b t r m bf add) with
  | none => rw [hfp] at h; cases h
  | some d =>
    rw [hfp] at h
    have h' : mkCommitGraph d g.branches g.tags = some g' := h
    unfold mkCommitGraph at h'
    split at h'
    · injection h' with h'
      subst h'
      exact ⟨rfl, rfl⟩
    · cases h'

/-- C10: the parent map produced by the filter has key set exactly the
interesting set, and every id in any recorded ancestor set is itself a
key, so no dangling parent reference exists. -/
theorem spec_c10_filter_closed_total (g : CommitGraph)
    (b t r m bf : Bool) (add : List Sha) (d : PMap)
    (hd : filterParents g.parents
      (interestingList g b t r m bf add) = some d) :
    (∀ x, x ∈ dkeys d ↔ x ∈ interestingList g b t r m bf add) ∧
    (∀ i s, dlookup d i = some s → ∀ j ∈ s, j ∈ dkeys d) := by
  refine ⟨filterParents_keys hd, ?_⟩
  intro i s hs j hj
  have hiI : i ∈ interestingList g b t r m bf add := by
    rw [← filterParents_lookup_isSome hd i, hs]
    simp
  obtain ⟨rr, hsr, hlk⟩ := filterParents_lookup_mem hd hiI
  rw [hs] at hlk
  injection hlk with hlk
  subst hlk
  have hjI := ((search_mem_iff hsr j).mp hj).1
  exact (filterParents_keys hd j).mpr hjI

/-- C5 (amended): an interesting commit absent from the parent map is
safe — it contributes an empty worklist and an empty recorded ancestor
set — and the whole filter succeeds whenever every non-interesting
commit occurring in a parent list is a key of the parent map; only a
non-interesting absent commit reached during the traversal makes the
lookup raise. -/
theorem spec_c5_missing_lookups (g : CommitGraph)
    (b t r m bf : Bool) (add : List Sha) :
    (∀ d, filterParents g.parents
        (interestingList g b t r m bf add) = some d →
      ∀ i ∈ interestingList g b t r m bf add, i ∉ dkeys g.parents →
        dlookup d i = some []) ∧
    ((∀ p ∈ pvalues g.parents,
        p ∉ interestingList g b t r m bf add → p ∈ dkeys g.parents) →
      (filterParents g.parents
        (interestingList g b t r m bf add)).isSome) := by
  constructor
  · intro d hd i hi hik
    obtain ⟨rr, hsr, hlk⟩ := filterParents_lookup_mem hd hi
    have hsv : startVisit g.parents i = [] := by
      unfold startVisit
      rw [dlookup_eq_none_iff.mpr hik]
      rfl
    rw [hsv, search_nil] at hsr
    injection hsr with hsr
    rw [hlk, ← hsr]
  · intro hcl
    rw [filterParents_isSome_iff]
    intro i hi
    exact search_isSome_of_closed hcl fun x hx => mem_startVisit_pvalues hx

/-- C4 (amended): when every commit occurring in the parent map (key or
value) is interesting under the chosen predicate set and, conversely,
every interesting commit is a key of the parent map, the filter succeeds
and yields a graph with the same key set, the same parent sets and the
same child relation as the input. -/
theorem spec_c4_filter_identity_on_all_interesting (g : CommitGraph)
    (b t r m bf : Bool) (add : List Sha)
    (hnd : (dkeys g.parents).Nodup)
    (hk : ∀ k ∈ dkeys g.parents,
      k ∈ interestingList g b t r m bf add)
    (hv : ∀ p ∈ pvalues g.parents,
      p ∈ interestingList g b t r m bf add)
    (hIk : ∀ i ∈ interestingList g b t r m bf add,
      i ∈ dkeys g.parents) :
    ∃ g', filterCG g b t r m bf add = some g' ∧
      (∀ x, x ∈ dkeys g'.parents ↔ x ∈ dkeys g.parents) ∧
      (∀ c j, j ∈ dgetL g'.parents c ↔ j ∈ dgetL g.parents c) ∧
      (∀ x y, childSpec g'.parents x y ↔ childSpec g.parents x y) := by
  have hsome : (filterParents g.parents
      (interestingList g b t r m bf add)).isSome := by
    rw [filterParents_isSome_iff]
    intro i hi
    refine search_isSome_of_closed ?_ fun x hx => mem_startVisit_pvalues hx
    intro p hp hpnI
    exact absurd (hv p hp) hpnI
  obtain ⟨d, hd⟩ := Option.isSome_iff_exists.mp hsome
  have hdnd : (dkeys d).Nodup := filterParents_nodup hd
  refine ⟨⟨d, g.branches, g.tags, [], childMapping d⟩, ?_, ?_, ?_, ?_⟩
  · unfold filterCG
    rw [hd]
    exact mkCommitGraph_eq_some hdnd
  · intro x
    rw [filterParents_keys hd x]
    exact ⟨hIk x, hk x⟩
  · intro c j
    by_cases hcI : c ∈ interestingList g b t r m bf add
    · obtain ⟨rr, hsr, hlk⟩ := filterParents_lookup_mem hd hcI
      have hck : c ∈ dkeys g.parents := hIk c hcI
      obtain ⟨ps, hps⟩ := Option.isSome_iff_exists.mp
        (dlookup_isSome_iff.mpr hck)
      have hsv : startVisit g.parents c = ps := by
        unfold startVisit
        rw [hps]
        rfl
      have hall : ∀ x ∈ startVisit g.parents c,
          x ∈ interestingList g b t r m bf add :=
        fun x hx => hv x (mem_startVisit_pvalues hx)
      have hchar := search_allI hsr hall j
      show j ∈ dgetL d c ↔ j ∈ dgetL g.parents c
      rw [show dgetL d c = rr by simp [dgetL, hlk],
        show dgetL g.parents c = ps by simp [dgetL, hps], hchar, hsv]
    · have h1 : dlookup d c = none := by
        rw [dlookup_eq_none_iff]
        intro hc
        exact hcI ((filterParents_keys hd c).mp hc)
      have h2 : dlookup g.parents c = none := by
        rw [dlookup_eq_none_iff]
        intro hc
        exact hcI (hk c hc)
      show j ∈ dgetL d c ↔ j ∈ dgetL g.parents c
      simp [dgetL, h1, h2]
  · intro x y
    rw [childSpec_iff_mem_dgetL hdnd, childSpec_iff_mem_dgetL hnd]
    by_cases hcI : y ∈ interestingList g b t r m bf add
    · obtain ⟨rr, hsr, hlk⟩ := filterParents_lookup_mem hd hcI
      have hck : y ∈ dkeys g.parents := hIk y hcI
      obtain ⟨ps, hps⟩ := Option.isSome_iff_exists.mp
        (dlookup_isSome_iff.mpr hck)
      have hsv : startVisit g.parents y = ps := by
        unfold startVisit
        rw [hps]
        rfl
      have hall : ∀ x' ∈ startVisit g.parents y,
          x' ∈ interestingList g b t r m bf add :=
        fun x' hx => hv x' (mem_startVisit_pvalues hx)
      have hchar := search_allI hsr hall x
      rw [show dgetL d y = rr by simp [dgetL, hlk],
        show dgetL g.parents y = ps by simp [dgetL, hps], hchar, hsv]
    · have h1 : dlookup d y = none := by
        rw [dlookup_eq_none_iff]
        intro hc
        exact hcI ((filterParents_keys hd y).mp hc)
      have h2 : dlookup g.parents y = none := by
        rw [dlookup_eq_none_iff]
        intro hc
        exact hcI (hk y hc)
      simp [dgetL, h1, h2]

theorem minDigitsAux_spec (pm : PMap) :
    ∀ (n d : Nat), d + n = 40 →
      (d ≤ minDigitsAux pm n d ∧ minDigitsAux pm n d ≤ 40) ∧
      (minDigitsAux pm n d < 40 →
        ((pm.map fun e => e.1.take (minDigitsAux pm n d)).toFinset.card =
            pm.length ∧
          ∀ d', d ≤ d' → d' < minDigitsAux pm n d →
            (pm.map fun e => e.1.take d').toFinset.card ≠ pm.length)) ∧
      (minDigitsAux pm n d = 40 →
        ∀ d', d ≤ d' → d' < 40 →
          (pm.map fun e => e.1.take d').toFinset.card ≠ pm.length) := by
  intro n
  induction n with
  | zero =>
    intro d hd
    simp only [minDigitsAux]
    refine ⟨⟨by omega, le_refl 40⟩, fun h => absurd h (by omega),
      fun _ d' h1 h2 => by omega⟩
  | succ n ih =>
    intro d hd
    simp only [minDigitsAux]
    split
    · next hamb =>
      refine ⟨⟨le_refl d, by omega⟩,
        fun _ => ⟨hamb, fun d' h1 h2 => by omega⟩, ?_⟩
      intro h40 d' h1 h2
      omega
    · next hamb =>
      have haux := ih (d + 1) (by omega)
      have h11 := haux.1.1
      refine ⟨⟨by omega, haux.1.2⟩, ?_, ?_⟩
      · intro hlt
        obtain ⟨ha, hmin⟩ := haux.2.1 hlt
        refine ⟨ha, ?_⟩
        intro d' hd1 hd2
        by_cases hde : d' = d
        · subst hde
          exact hamb
        · exact hmin d' (by omega) hd2
      · intro h40 d' hd1 hd2
        by_cases hde : d' = d
        · subst hde
          exact hamb
        · exact haux.2.2 h40 d' (by omega) hd2

/-- C6: for a non-empty set of 40-character ids, the minimal-width
computation returns the smallest width in the range 7 to 39 at which the
truncated ids are as many as the distinct full ids, 40 when no such
width exists, and never anything below 7. -/
theorem spec_c6_minimal_digits (pm : PMap) (hne : pm ≠ [])
    (h40 : ∀ e ∈ pm, e.1.length = 40) (hnd : (dkeys pm).Nodup) :
    (7 ≤ minimalShaOneDigits pm ∧ minimalShaOneDigits pm ≤ 40) ∧
    (minimalShaOneDigits pm < 40 →
      ((pm.map fun e => e.1.take (minimalShaOneDigits pm)).toFinset.card =
          (dkeys pm).toFinset.card ∧
        ∀ d, 7 ≤ d → d < minimalShaOneDigits pm →
          (pm.map fun e => e.1.take d).toFinset.card ≠
            (dkeys pm).toFinset.card)) ∧
    (minimalShaOneDigits pm = 40 →
      ∀ d, 7 ≤ d → d < 40 →
        (pm.map fun e => e.1.take d).toFinset.card ≠
          (dkeys pm).toFinset.card) := by
  have hlen : (dkeys pm).toFinset.card = pm.length := by
    rw [List.toFinset_card_of_nodup hnd]
    simp [dkeys]
  have haux := minDigitsAux_spec pm 33 7 (by omega)
  unfold minimalShaOneDigits
  rw [hlen]
  exact haux

theorem length_filter_eq_zero_of {l : List DotLine} {p : DotLine → Bool}
    (h : ∀ x ∈ l, p x = false) : (l.filter p).length = 0 := by
  induction l with
  | nil => simp
  | cons a rest ih =>
    rw [List.filter_cons, if_neg (by simp [h a (List.mem_cons_self ..)])]
    exact ih fun x hx => h x (List.mem_cons_of_mem _ hx)

theorem length_filter_map_ref_zero {f : Sha → DotLine} {l : List Sha}
    {k : Sha} (hf : ∀ x, isNodeDeclFor k (f x) = true ↔ x = k)
    (hk : k ∉ l) : ((l.map f).filter (isNodeDeclFor k)).length = 0 := by
  refine length_filter_eq_zero_of ?_
  intro x hx
  obtain ⟨a, ha, rfl⟩ := List.mem_map.mp hx
  rw [Bool.eq_false_iff]
  intro hc
  exact hk ((hf a).mp hc ▸ ha)

theorem length_filter_map_ref_one {f : Sha → DotLine} {l : List Sha}
    {k : Sha} (hf : ∀ x, isNodeDeclFor k (f x) = true ↔ x = k)
    (hl : l.Nodup) (hk : k ∈ l) :
    ((l.map f).filter (isNodeDeclFor k)).length = 1 := by
  induction l with
  | nil => simp at hk
  | cons a rest ih =>
    rw [List.nodup_cons] at hl
    rcases List.mem_cons.mp hk with rfl | hk'
    · rw [List.map_cons, List.filter_cons, if_pos ((hf k).mpr rfl)]
      simp only [List.length_cons]
      rw [length_filter_map_ref_zero hf hl.1]
    · have hak : ¬ a = k := by
        rintro rfl
        exact hl.1 hk'
      rw [List.map_cons, List.filter_cons,
        if_neg (fun hc => hak ((hf a).mp hc))]
      exact ih hl.2 hk'

theorem count_map_edge {v : List Sha} {k p : Sha} :
    (v.map fun q => DotLine.edgeTo k q).count (DotLine.edgeTo k p) =
      v.count p := by
  induction v with
  | nil => simp
  | cons a rest ih =>
    simp only [List.map_cons, List.count_cons, ih]
    by_cases ha : a = p
    · subst ha
      simp
    · simp [beq_iff_eq, ha]

theorem count_edge_map_zero {v : List Sha} {k c p : Sha} (hck : ¬ k = c) :
    (v.map fun q => DotLine.edgeTo k q).count (DotLine.edgeTo c p) = 0 := by
  rw [List.count_eq_zero]
  intro hmem
  obtain ⟨a, _, ha⟩ := List.mem_map.mp hmem
  injection ha with h1 h2
  exact hck h1

theorem count_edge_flatMap_zero {pm : PMap} {c p : Sha}
    (hc : c ∉ dkeys pm) :
    (pm.flatMap fun e => e.2.map fun q => DotLine.edgeTo e.1 q).count
      (DotLine.edgeTo c p) = 0 := by
  induction pm with
  | nil => simp
  | cons e rest ih =>
    obtain ⟨k, v⟩ := e
    simp only [dkeys, List.map_cons, List.mem_cons] at hc
    push_neg at hc
    rw [List.flatMap_cons, List.count_append,
      count_edge_map_zero (fun h => hc.1 h.symm),
      ih (by simpa [dkeys] using hc.2)]

theorem count_edge_flatMap_one {pm : PMap} {c p : Sha}
    (hnd : (dkeys pm).Nodup) (hvnd : ∀ e ∈ pm, e.2.Nodup)
    (hp : p ∈ dgetL pm c) :
    (pm.flatMap fun e => e.2.map fun q => DotLine.edgeTo e.1 q).count
      (DotLine.edgeTo c p) = 1 := by
  induction pm with
  | nil => simp [dgetL, dlookup] at hp
  | cons e rest ih =>
    obtain ⟨k, v⟩ := e
    simp only [dkeys, List.map_cons, List.nodup_cons] at hnd
    rw [List.flatMap_cons, List.count_append]
    by_cases hk : k = c
    · subst hk
      have hpv : p ∈ v := by
        simpa [dgetL, dlookup] using hp
      rw [count_map_edge,
        List.count_eq_one_of_mem (hvnd (k, v) (List.mem_cons_self ..)) hpv,
        count_edge_flatMap_zero (by simpa [dkeys] using hnd.1)]
    · have hp' : p ∈ dgetL rest c := by
        simpa [dgetL, dlookup, hk] using hp
      rw [count_edge_map_zero hk,
        ih hnd.2 (fun e' he' => hvnd e' (List.mem_cons_of_mem _ he')) hp']

theorem mem_labelKeys {g : CommitGraph} {k : Sha} :
    k ∈ labelKeys g ↔ k ∈ dkeys g.branches ∨ k ∈ dkeys g.tags := by
  simp [labelKeys]

/-- C7: the rendered output holds exactly one node-declaration line for
every id in the branch or tag map, with color case 1 for tag-only ids,
2 for branch-only ids and 3 for ids carrying both, exactly one edge line
per recorded (child, parent) pair, the opening marker first and the
closing marker last. -/
theorem spec_c7_render_completeness (g : CommitGraph) (showIds : Bool)
    (digits : Option Nat)
    (hpk : (dkeys g.parents).Nodup)
    (hpv : ∀ e ∈ g.parents, e.2.Nodup)
    (hdd : g.dotdot = []) :
    (∀ k, (k ∈ dkeys g.tags ∨ k ∈ dkeys g.branches) →
      (((generateDotFile g showIds digits).filter
          (isNodeDeclFor k)).length = 1 ∧
        DotLine.nodeLabeled k (nodeLabelText g showIds digits k)
          (nodeColor g k) ∈ generateDotFile g showIds digits ∧
        (k ∈ dkeys g.tags → k ∉ dkeys g.branches →
          nodeColor g k = "/pastel13/1") ∧
        (k ∉ dkeys g.tags → k ∈ dkeys g.branches →
          nodeColor g k = "/pastel13/2") ∧
        (k ∈ dkeys g.tags → k ∈ dkeys g.branches →
          nodeColor g k = "/pastel13/3"))) ∧
    (∀ c p, p ∈ dgetL g.parents c →
      (generateDotFile g showIds digits).count (DotLine.edgeTo c p) = 1) ∧
    (generateDotFile g showIds digits).head? = some DotLine.openB ∧
    (generateDotFile g showIds digits).getLast? = some DotLine.closeB := by
  refine ⟨?_, ?_, ?_, ?_⟩
  · intro k hk
    have hkL : k ∈ labelKeys g := mem_labelKeys.mpr hk.symm
    have hlab : hasLabel g k = true := by
      rcases hk with h | h <;> simp [hasLabel, h]
    refine ⟨?_, ?_, ?_, ?_, ?_⟩
    · have h0 : (([DotLine.openB].filter (isNodeDeclFor k)).length = 0) := by
        simp [isNodeDeclFor]
      have hA : (((labelKeys g).map fun k' =>
          DotLine.nodeLabeled k' (nodeLabelText g showIds digits k')
            (nodeColor g k')).filter (isNodeDeclFor k)).length = 1 :=
        length_filter_map_ref_one (by intro x; simp [isNodeDeclFor])
          (List.nodup_dedup _) hkL
      have hB : ((g.dotdot.map DotLine.nodeElided).filter
          (isNodeDeclFor k)).length = 0 := by
        rw [hdd]
        simp
      have hC : (((if digits.isSome ∧ digits ≠ some 40 then
          ((dkeys g.parents).filter fun s =>
            ¬ (hasLabel g s = true ∨ s ∈ g.dotdot)).map fun s =>
              DotLine.nodePlain s (formatShaOne digits s)
         else []).filter (isNodeDeclFor k))).length = 0 := by
        split
        · refine length_filter_eq_zero_of ?_
          intro x hx
          obtain ⟨s, hs, rfl⟩ := List.mem_map.mp hx
          obtain ⟨hs1, hs2⟩ := List.mem_filter.mp hs
          rw [Bool.eq_false_iff]
          intro hc
          have hsk : s = k := by simpa [isNodeDeclFor] using hc
          subst hsk
          simp [hlab] at hs2
        · simp
      have hD : ((g.parents.flatMap fun e =>
          e.2.map fun p => DotLine.edgeTo e.1 p).filter
            (isNodeDeclFor k)).length = 0 := by
        refine length_filter_eq_zero_of ?_
        intro x hx
        obtain ⟨e, _, hx'⟩ := List.mem_flatMap.mp hx
        obtain ⟨q, _, rfl⟩ := List.mem_map.mp hx'
        rfl
      have h5 : (([DotLine.closeB].filter (isNodeDeclFor k)).length = 0) := by
        simp [isNodeDeclFor]
      simp only [generateDotFile, List.filter_append, List.length_append]
      omega
    · simp only [generateDotFile, List.mem_append]
      refine Or.inl (Or.inl (Or.inl (Or.inl (Or.inr ?_))))
      exact List.mem_map.mpr ⟨k, hkL, rfl⟩
    · intro h1 h2
      have hc : nodeCase g k = 1 := by
        simp [nodeCase, h1, h2]
      rw [nodeColor, hc]
      decide
    · intro h1 h2
      have hc : nodeCase g k = 2 := by
        simp [nodeCase, h1, h2]
      rw [nodeColor, hc]
      decide
    · intro h1 h2
      have hc : nodeCase g k = 3 := by
        simp [nodeCase, h1, h2]
      rw [nodeColor, hc]
      decide
  · intro c p hp
    have h0 : ([DotLine.openB].count (DotLine.edgeTo c p) = 0) := by
      simp
    have hA : (((labelKeys g).map fun k' =>
        DotLine.nodeLabeled k' (nodeLabelText g showIds digits k')
          (nodeColor g k')).count (DotLine.edgeTo c p)) = 0 := by
      rw [List.count_eq_zero]
      intro hc
      obtain ⟨a, _, ha⟩ := List.mem_map.mp hc
      cases ha
    have hB : ((g.dotdot.map DotLine.nodeElided).count
        (DotLine.edgeTo c p)) = 0 := by
      rw [hdd]
      simp
    have hC : ((if digits.isSome ∧ digits ≠ some 40 then
        ((dkeys g.parents).filter fun s =>
          ¬ (hasLabel g s = true ∨ s ∈ g.dotdot)).map fun s =>
            DotLine.nodePlain s (formatShaOne digits s)
       else []).count (DotLine.edgeTo c p)) = 0 := by
      split
      · rw [List.count_eq_zero]
        intro hc
        obtain ⟨a, _, ha⟩ := List.mem_map.mp hc
        cases ha
      · simp
    have hD := count_edge_flatMap_one hpk hpv hp
    have h5 : (([DotLine.closeB].count (DotLine.edgeTo c p)) = 0) := by
      simp
    simp only [generateDotFile, List.count_append]
    omega
  · rfl
  · rw [generateDotFile]
    exact List.getLast?_concat _

/-- C1 witness: the collapsing example of the claim, a chain whose two
tagged ends survive with a single collapsed edge between them. -/
theorem spec_c1_witness :
    (∀ e ∈ chainPM, ∀ p ∈ e.2, chainRank p < chainRank e.1) ∧
    filterParents chainPM chainI = some chainD ∧
    ((∀ i, (dlookup chainD i).isSome ↔ i ∈ chainI) ∧
      (∀ i s, dlookup chainD i = some s → ∀ j,
        j ∈ s ↔ j ∈ chainI ∧ ∃ p, stepRel chainPM i p ∧
          ReachNI chainPM chainI p j)) :=
  ⟨by decide, by decide,
    spec_c1_filter_nearest_interesting chainGraph true true false false false
      [] chainRank (by decide) chainD (by decide)⟩

/-- C2 witness: the inverse property evaluated on a two-commit map. -/
theorem spec_c2_witness :
    (dkeys c2PM).Nodup ∧
    ((∀ c p : Sha, p ∈ dgetL c2PM c ↔ c ∈ dgetL (childMapping c2PM) p) ∧
      (∀ k ∈ dkeys c2PM, k ∈ dkeys (childMapping c2PM))) :=
  ⟨by decide, spec_c2_child_map_inverse c2PM (by decide)⟩

/-- C3 counterexample: constructing a CommitGraph from the deliberately
corrupted parent map succeeds instead of raising, because the child map
is derived fresh; the verification itself can only fail on a child map
that was not derived from the parent map, as the second conjunct shows
on an externally tampered pair. -/
theorem spec_c3_counterexample :
    (mkCommitGraph corruptPM [] []).isSome = true ∧
    verifyChildMapping [("x", ["y"]), ("y", [])]
      [("y", ["y"]), ("x", [])] = false := by decide

/-- C3 witness: the amended theorem applied to the corrupted map. -/
theorem spec_c3_witness :
    (dkeys corruptPM).Nodup ∧
    (mkCommitGraph corruptPM [] [] =
        some ⟨corruptPM, [], [], [], childMapping corruptPM⟩ ∧
      verifyChildMapping corruptPM (childMapping corruptPM) = true) :=
  ⟨by decide, spec_c3_construction_never_fails corruptPM [] [] (by decide)⟩

/-- C4 counterexample: every commit in the parent map is tagged, yet the
filtered graph is not isomorphic to the input — the tag on the id x
absent from the parent map adds a node x to the result. -/
theorem spec_c4_counterexample :
    (∀ k ∈ dkeys c4PM,
      k ∈ interestingList c4Graph true true false false false []) ∧
    (∀ p ∈ pvalues c4PM,
      p ∈ interestingList c4Graph true true false false false []) ∧
    filterCG c4Graph true true false false false [] = some c4Res ∧
    "x" ∈ dkeys c4Res.parents ∧ "x" ∉ dkeys c4PM := by decide

/-- C4 witness: the amended theorem applied to a fully tagged two-commit
graph. -/
theorem spec_c4_witness :
    ∃ g', filterCG c4wGraph true true false false false [] = some g' ∧
      (∀ x, x ∈ dkeys g'.parents ↔ x ∈ dkeys c4wGraph.parents) ∧
      (∀ c j, j ∈ dgetL g'.parents c ↔ j ∈ dgetL c4wGraph.parents c) ∧
      (∀ x y, childSpec g'.parents x y ↔ childSpec c4wGraph.parents x y) :=
  spec_c4_filter_identity_on_all_interesting c4wGraph true true false false
    false [] (by decide) (by decide) (by decide) (by decide)

/-- C5 counterexample: commit x, absent from the parent map and not
interesting, is reached during the traversal from the tagged commit a;
the lookup of its parents raises and the whole filter call fails instead
of treating x as having zero parents. -/
theorem spec_c5_counterexample :
    "x" ∈ pvalues c5PM ∧ "x" ∉ dkeys c5PM ∧
    filterCG c5Graph true true false false false [] = none := by decide

/-- C5 witness: a tag on the id x absent from the parent map yields an
empty recorded ancestor set and the filter succeeds. -/
theorem spec_c5_witness :
    dlookup c5wD "x" = some [] ∧
    (filterParents c5wPM
      (interestingList c5wGraph true true false false false [])).isSome := by
  have h := spec_c5_missing_lookups c5wGraph true true false false false []
  exact ⟨h.1 c5wD (by decide) "x" (by decide) (by decide), h.2 (by decide)⟩

/-- C6 witness: two 40-character ids that agree on their first 7
characters and differ at the eighth need width 8. -/
theorem spec_c6_witness :
    minimalShaOneDigits c6PM = 8 ∧
    ((7 ≤ minimalShaOneDigits c6PM ∧ minimalShaOneDigits c6PM ≤ 40) ∧
      (minimalShaOneDigits c6PM < 40 →
        ((c6PM.map fun e => e.1.take (minimalShaOneDigits c6PM)).toFinset.card =
            (dkeys c6PM).toFinset.card ∧
          ∀ d, 7 ≤ d → d < minimalShaOneDigits c6PM →
            (c6PM.map fun e => e.1.take d).toFinset.card ≠
              (dkeys c6PM).toFinset.card)) ∧
      (minimalShaOneDigits c6PM = 40 →
        ∀ d, 7 ≤ d → d < 40 →
          (c6PM.map fun e => e.1.take d).toFinset.card ≠
            (dkeys c6PM).toFinset.card)) :=
  ⟨by decide,
    spec_c6_minimal_digits c6PM (by decide) (by decide) (by decide)⟩

/-- C7 witness: render completeness on a two-commit graph with one
branch and one tag. -/
theorem spec_c7_witness :
    ((dkeys c7Graph.parents).Nodup ∧ (∀ e ∈ c7Graph.parents, e.2.Nodup) ∧
      c7Graph.dotdot = []) ∧
    ((∀ k, (k ∈ dkeys c7Graph.tags ∨ k ∈ dkeys c7Graph.branches) →
      (((generateDotFile c7Graph true none).filter
          (isNodeDeclFor k)).length = 1 ∧
        DotLine.nodeLabeled k (nodeLabelText c7Graph true none k)
          (nodeColor c7Graph k) ∈ generateDotFile c7Graph true none ∧
        (k ∈ dkeys c7Graph.tags → k ∉ dkeys c7Graph.branches →
          nodeColor c7Graph k = "/pastel13/1") ∧
        (k ∉ dkeys c7Graph.tags → k ∈ dkeys c7Graph.branches →
          nodeColor c7Graph k = "/pastel13/2") ∧
        (k ∈ dkeys c7Graph.tags → k ∈ dkeys c7Graph.branches →
          nodeColor c7Graph k = "/pastel13/3"))) ∧
    (∀ c p, p ∈ dgetL c7Graph.parents c →
      (generateDotFile c7Graph true none).count (DotLine.edgeTo c p) = 1) ∧
    (generateDotFile c7Graph true none).head? = some DotLine.openB ∧
    (generateDotFile c7Graph true none).getLast? = some DotLine.closeB) :=
  ⟨⟨by decide, by decide, by decide⟩,
    spec_c7_render_completeness c7Graph true none (by decide) (by decide)
      (by decide)⟩

/-- C8: rendering is not pure — on a graph with a non-empty parent map
the edge-emission loop rebinds the parents attribute, leaving it equal
to the last iterated parent list (here the empty list) instead of the
original map. -/
theorem spec_c8_render_mutates_parents :
    (generateDotFileEffect c8Graph true none).2 ≠ Sum.inl c8Graph.parents ∧
    (generateDotFileEffect c8Graph true none).2 = Sum.inr [] ∧
    c8Graph.parents ≠ [] := by decide

/-- C9 witness: the receiver is returned unchanged and the result graph
carries value-equal branch and tag maps. -/
theorem spec_c9_witness :
    (filterCGEffect c9Graph true true false false false []).2 = c9Graph ∧
    (c9Graph.branches = c9Graph.branches ∧ c9Graph.tags = c9Graph.tags) := by
  have h := spec_c9_filter_no_shared_state c9Graph true true false false
    false []
  exact ⟨h.1, h.2 c9Graph (by decide)⟩

/-- C10 witness: on the chain graph the filtered parent map has exactly
the interesting commits as keys and no dangling ancestor entry. -/
theorem spec_c10_witness :
    filterParents chainPM chainI = some chainD ∧
    ((∀ x, x ∈ dkeys chainD ↔ x ∈ chainI) ∧
      (∀ i s, dlookup chainD i = some s → ∀ j ∈ s, j ∈ dkeys chainD)) :=
  ⟨by decide, spec_c10_filter_closed_total chainGraph true true false false
    false [] chainD (by decide)⟩
